import Mathlib

/-!
Shallow embedding of the repository-traversal engine of the GitHub scraper
(source file `fr10.py`).  Strings are modelled as `List Char`; machine side
effects (HTTP requests, sleeping) are modelled by passing explicit
environments and returning the data the code would compute from them.
Definitions follow the Python source line by line; theorems settle the
frozen claims about the spec.
-/

/-! ### String helpers (Python `str` primitives used by the source) -/

/-- Characters treated as whitespace by Python's `str.strip()`. -/
def isWSb (c : Char) : Bool :=
  c = ' ' || c = '\t' || c = '\n' || c = '\r' || c = '\x0b' || c = '\x0c'

/-- Python `str.lstrip()`. -/
def lstrip (l : List Char) : List Char := l.dropWhile isWSb

/-- Python `str.rstrip()`. -/
def rstrip (l : List Char) : List Char := l.rdropWhile isWSb

/-- Python `str.strip()`. -/
def strip (l : List Char) : List Char := rstrip (lstrip l)

/-- Python `line.split('#')[0]`: the text before the first `'#'`. -/
def splitHashHead (l : List Char) : List Char := l.takeWhile (fun c => c ≠ '#')

/-- Python `pat in s` (substring containment). -/
def containsSub (pat l : List Char) : Bool :=
  l.tails.any (fun t => pat.isPrefixOf t)

/-- Split at the first occurrence of `pat`, returning the text before the
occurrence and the text after it (Python `s.split(pat, 1)` when `pat` occurs). -/
def splitFirst (pat : List Char) : List Char → Option (List Char × List Char)
  | [] => if pat.isPrefixOf ([] : List Char) then some ([], []) else none
  | c :: rest =>
    if pat.isPrefixOf (c :: rest) then some ([], (c :: rest).drop pat.length)
    else match splitFirst pat rest with
      | some (b, a) => some (c :: b, a)
      | none => none

/-- ASCII lowering, modelling Python `str.lower()` on the ASCII responses
the code inspects. -/
def asciiLower (l : List Char) : List Char :=
  l.map (fun c => if 'A' ≤ c ∧ c ≤ 'Z' then Char.ofNat (c.toNat + 32) else c)

/-! ### `parse_requirement_line` (fr10.py lines 615-637) -/

/-- A parsed requirements.txt dependency record
`{'name': …, 'version': …, 'raw': …}`. -/
structure DepSpec where
  name : List Char
  version : List Char
  raw : List Char
deriving DecidableEq

/-- The version operators scanned, in the source's fixed precedence order. -/
def operators : List (List Char) :=
  ["==", ">=", "<=", ">", "<", "~=", "!="].map String.toList

/-- fr10.py `parse_requirement_line`, after the comment strip, acting on the
already-stripped line `l`. -/
def parseReqCore (l : List Char) : Option DepSpec :=
  if l = [] then none
  else if "git+".toList.isPrefixOf l || "http".toList.isPrefixOf l then
    -- parts = line.split('#egg='); if len(parts) > 1: name = parts[1].strip()
    match splitFirst "#egg=".toList l with
    | some (_, a) =>
        let p1 := match splitFirst "#egg=".toList a with
          | some (b2, _) => b2
          | none => a
        some ⟨strip p1, "git".toList, l⟩
    | none => some ⟨l, "url".toList, l⟩
  else
    match operators.find? (fun op => containsSub op l) with
    | some op =>
        match splitFirst op l with
        | some (b, a) => some ⟨strip b, op ++ strip a, l⟩
        | none => none   -- unreachable: the operator was found in the line
    | none => some ⟨strip l, "latest".toList, l⟩

/-- fr10.py `parse_requirement_line`: strip the inline comment and
surrounding whitespace, then dispatch on the line's shape. -/
def parse_requirement_line (line : List Char) : Option DepSpec :=
  parseReqCore (strip (splitHashHead line))

/-- The reconstructed "name+constraint" cell text built by
`create_branches_sheet` (fr10.py line 768):
`f"{p[name]}{p[version] if p[version] != 'latest' else ''}"`. -/
def reconstructPkg (s : DepSpec) : List Char :=
  s.name ++ (if s.version = "latest".toList then [] else s.version)

/-! ### `handle_rate_limiting` (fr10.py lines 155-170)

An HTTP response is modelled by its rate-limit headers, status code, body
text and (already JSON-decoded) payload.  `handle_rate_limiting` becomes a
pure function of the response and the current wall-clock time, returning
the retry signal together with the number of seconds slept (0 when it does
not block). -/

structure HttpResponse (α : Type) where
  remaining : Option Nat       -- X-RateLimit-Remaining header, absent allowed
  reset : Option Int           -- X-RateLimit-Reset header
  status : Nat
  bodyText : List Char
  json : α
deriving DecidableEq

/-- The quota-exceeded message the source greps the body for. -/
def rateLimitMsg : List Char := "rate limit exceeded".toList

/-- fr10.py `handle_rate_limiting`: returns (retry-signal, seconds slept). -/
def handle_rate_limiting {α : Type} (resp : HttpResponse α) (now : Int) : Bool × Int :=
  match resp.remaining with
  | none => (false, 0)
  | some remaining =>
    if remaining = 0 ∨ (resp.status = 403 ∧ containsSub rateLimitMsg (asciiLower resp.bodyText)) then
      let resetTime := resp.reset.getD (now + 3600)
      (true, max (resetTime - now) 0 + 1)
    else (false, 0)

/-! ### `get_all_org_repos` (fr10.py lines 61-141)

The environment supplies, for each of the two listing endpoints, the
sequence of pages the server would serve to successive page requests
(requesting past the end of the sequence yields an empty page).  Responses
are taken past the rate-limit gate (`handle_rate_limiting` returning
`False`); the instrumented output additionally records, for every page
request issued, the number of repositories accumulated at that moment, and
the raw stream of (owner-filtered) repository records the loop examined. -/

structure RepoRec where
  name : List Char
  owner : List Char             -- repo['owner']['login']
deriving DecidableEq

structure ListPage where
  status : Nat
  repos : List RepoRec          -- response.json()
  linkHasNext : Option Bool     -- Link header: present? contains rel="next"?
deriving DecidableEq

structure FetchOut where
  repos : List RepoRec          -- all_repos
  reqLog : List Nat             -- len(all_repos) at each page request issued
  seen : List RepoRec           -- concatenation of the examined page contents
deriving DecidableEq

/-- per_page = 100, the maximum allowed by the GitHub API. -/
def perPage : Nat := 100

/-- Python `if limit and len(all_repos) >= limit` (note `0` is falsy). -/
def limitActive (limit : Option Nat) (n : Nat) : Bool :=
  match limit with
  | some l => l ≠ 0 && l ≤ n
  | none => false

/-- The per-page dedup block (fr10.py lines 108-116): append the records of
the page whose name has not been seen yet, in page order. -/
def addNewRepos (acc : List RepoRec) (page : List RepoRec) : List RepoRec :=
  page.foldl (fun a r => if r.name ∈ a.map RepoRec.name then a else a ++ [r]) acc

/-- The `while True` pagination loop of one endpoint.  `filt` is the
owner filter applied to `user/repos` pages (identity for the org endpoint). -/
def runEndpoint (filt : RepoRec → Bool) (limit : Option Nat) :
    List ListPage → List RepoRec → FetchOut
  | [], acc => ⟨acc, [acc.length], []⟩            -- server: empty page, break
  | p :: rest, acc =>
    if p.status ≠ 200 then ⟨acc, [acc.length], []⟩
    else if p.repos = [] then ⟨acc, [acc.length], []⟩
    else
      let pageRepos := p.repos.filter filt
      let acc' := addNewRepos acc pageRepos
      if limitActive limit acc'.length then ⟨acc', [acc.length], pageRepos⟩
      else
        let stop := match p.linkHasNext with
          | some hasNext => !hasNext               -- Link header present
          | none => pageRepos.length < perPage     -- short page heuristic
        if stop then ⟨acc', [acc.length], pageRepos⟩
        else
          let out := runEndpoint filt limit rest acc'
          ⟨out.repos, acc.length :: out.reqLog, pageRepos ++ out.seen⟩

/-- Python `if limit and len(all_repos) > limit: all_repos = all_repos[:limit]`. -/
def finalTrim (limit : Option Nat) (l : List RepoRec) : List RepoRec :=
  match limit with
  | some k => if k ≠ 0 ∧ k < l.length then l.take k else l
  | none => l

/-- fr10.py `get_all_org_repos` after a successful authentication check:
walk the org endpoint, then (unless the limit was already reached) the
`user/repos` endpoint filtered to the organization, dedup by name as pages
arrive, and finally trim to the limit. -/
def get_all_org_repos (orgName : List Char) (e1 e2 : List ListPage)
    (limit : Option Nat) : FetchOut :=
  if limitActive limit 0 then ⟨finalTrim limit [], [], []⟩
  else
    let o1 := runEndpoint (fun _ => true) limit e1 []
    if limitActive limit o1.repos.length then
      ⟨finalTrim limit o1.repos, o1.reqLog, o1.seen⟩
    else
      let o2 := runEndpoint (fun r => r.owner = orgName) limit e2 o1.repos
      ⟨finalTrim limit o2.repos, o1.reqLog ++ o2.reqLog, o1.seen ++ o2.seen⟩

/-! ### `get_branch_tree` and its fallback (fr10.py lines 238-385)

The ref, tree, root-listing and directory-listing endpoints are modelled by
explicit response environments; a `none` response stands for a raised
`RequestException`/`JSONDecodeError`.  Tree items keep the fields the code
consults (`type`, `path`); the `sha`/`url` fields, never read by the
traversal, are dropped. -/

structure TreeItem where
  type : List Char
  path : List Char
deriving DecidableEq

/-- Payload of the branch-reference endpoint:
`branch_data.get('commit', {}).get('sha')`. -/
structure RefPayload where
  commitSha : Option (List Char)
deriving DecidableEq

/-- Payload of the recursive-tree endpoint. -/
structure TreePayload where
  truncated : Bool
  tree : List TreeItem
deriving DecidableEq

/-- An entry of a `contents` (directory-listing) response. -/
structure DirItem where
  type : List Char
  name : List Char
  path : List Char
deriving DecidableEq

/-- Environment of the directory-walk fallback: the root listing response
and the response for each directory path probed. -/
structure AltEnv where
  root : Option (HttpResponse (List DirItem))
  dirContents : List Char → Option (HttpResponse (List DirItem))

/-- One iteration of the retry loop: the ref response obtained for this
attempt, and the tree response obtained if the attempt got that far. -/
structure Attempt where
  ref : Option (HttpResponse RefPayload)
  tree : Option (HttpResponse TreePayload)

/-- Environment of `get_branch_tree`: the current wall-clock time, the
response pair served to each retry attempt, and the fallback environment. -/
structure BranchTreeEnv where
  now : Int
  attempts : Nat → Attempt
  alt : AltEnv

/-- Python `path.endswith('.py')`. -/
def endsWithPy (path : List Char) : Bool := ".py".toList.isSuffixOf path

/-- fr10.py `get_directory_python_files`: list one directory, keep the
`.py` files as blob entries; any error yields `[]`. -/
def get_directory_python_files (alt : AltEnv) (dirPath : List Char) : List TreeItem :=
  match alt.dirContents dirPath with
  | none => []
  | some r =>
    if r.status ≠ 200 then []
    else (r.json.filter (fun it => it.type = "file".toList ∧ endsWithPy it.name)).map
      (fun it => ⟨"blob".toList, it.path⟩)

/-- The fixed allow-list of conventional source directories. -/
def importantDirs : List (List Char) :=
  ["src", "app", "lib", "core", "models", "utils"].map String.toList

/-- fr10.py `get_python_files_alternative`: list the branch root, collect
root `.py` files, recurse one level into the allow-listed directories, and
force-probe `src`, `app`, `lib` when fewer than 5 files were found. -/
def get_python_files_alternative (alt : AltEnv) (now : Int) : List TreeItem :=
  match alt.root with
  | none => []
  | some r =>
    if (handle_rate_limiting r now).1 then []
    else if r.status ≠ 200 then []
    else
      let fromRoot := r.json.foldl (fun acc it =>
        if it.type = "file".toList ∧ endsWithPy it.name then
          acc ++ [⟨"blob".toList, it.path⟩]
        else if it.type = "dir".toList ∧ it.name ∈ importantDirs then
          acc ++ get_directory_python_files alt it.path
        else acc) []
      if fromRoot.length < 5 then
        fromRoot ++ get_directory_python_files alt "src".toList
          ++ get_directory_python_files alt "app".toList
          ++ get_directory_python_files alt "lib".toList
      else fromRoot

/-- The body of one attempt of `get_branch_tree`'s retry loop:
`none` means the attempt ended in `continue` (rate-limit pause) or in the
retried exception path; `some files` is a final return value. -/
def attemptStep (now : Int) (alt : AltEnv) (a : Attempt) : Option (List TreeItem) :=
  match a.ref with
  | none => none                              -- RequestException: retry
  | some refR =>
    if (handle_rate_limiting refR now).1 then none   -- continue
    else if refR.status ≠ 200 then some []
    else
      match refR.json.commitSha with
      | none => some []                       -- `if not commit_sha`
      | some sha =>
        if sha = [] then some []
        else
          match a.tree with
          | none => some (get_python_files_alternative alt now)  -- tree fetch raised
          | some treeR =>
            if (handle_rate_limiting treeR now).1 then none      -- continue
            else if treeR.status ≠ 200 then
              some (get_python_files_alternative alt now)
            else if treeR.json.truncated then
              some (get_python_files_alternative alt now)
            else
              some (treeR.json.tree.filter
                (fun it => it.type = "blob".toList ∧ endsWithPy it.path))

/-- The retry loop (`for attempt in range(max_retries)`): run attempts from
index `i` with `fuel` attempts left; exhausting them falls back to the
alternative walk. -/
def get_branch_tree_go (env : BranchTreeEnv) : Nat → Nat → List TreeItem
  | _, 0 => get_python_files_alternative env.alt env.now
  | i, fuel + 1 =>
    match attemptStep env.now env.alt (env.attempts i) with
    | some res => res
    | none => get_branch_tree_go env (i + 1) fuel

/-- fr10.py `get_branch_tree` with `max_retries = 3`. -/
def get_branch_tree (env : BranchTreeEnv) : List TreeItem :=
  get_branch_tree_go env 0 3

/-! ### `find_file_in_branch` (fr10.py lines 210-236)

The environment maps the index of each request the function would issue to
the response the server gives it; the function issues only request 0.  The
`content` field holds the base64-decoded UTF-8 text (decoding is modelled
as already done; a `None` content raises, which the source swallows into
`None`).  The result pairs the returned value with the number of requests
issued. -/

structure FilePayload where
  encoding : Option (List Char)
  content : Option (List Char)
deriving DecidableEq

def find_file_in_branch (now : Int) (server : Nat → HttpResponse FilePayload) :
    Option (List Char) × Nat :=
  let r := server 0
  if (handle_rate_limiting r now).1 then (none, 1)
  else if r.status ≠ 200 then (none, 1)
  else if r.json.encoding = some "base64".toList then
    match r.json.content with
    | some text => (some text, 1)
    | none => (none, 1)        -- b64decode(None) raises; swallowed to None
  else (none, 1)

/-! ### `extract_imports_from_python_content` (fr10.py lines 387-428)

The five import regexes are rendered as deterministic scanners.  On the
character classes involved (`\w`, `\s`, literals `,`, `.`, `(`) the greedy
regex semantics are deterministic, so maximal-munch scanning realises
`re.findall` with its `^`-anchored patterns (at most one match per line). -/

/-- Python regex `\w` (ASCII range). -/
def isWordChar (c : Char) : Bool := c.isAlphanum || c = '_'

/-- Scan `\w+`: at least one word character, maximal munch. -/
def span1Word (l : List Char) : Option (List Char × List Char) :=
  let s := l.span isWordChar
  if s.1 = [] then none else some s

/-- Scan `\s+`: at least one whitespace character, maximal munch. -/
def wsPlus (l : List Char) : Option (List Char) :=
  match l with
  | [] => none
  | c :: rest => if isWSb c then some (rest.dropWhile isWSb) else none

/-- Scan a literal. -/
def dropLit (lit l : List Char) : Option (List Char) :=
  if lit.isPrefixOf l then some (l.drop lit.length) else none

/-- One `\s*,\s*\w+` repetition, returning the matched text and the rest. -/
def commaRep (r : List Char) : Option (List Char × List Char) :=
  let s1 := r.span isWSb
  match dropLit ",".toList s1.2 with
  | none => none
  | some r2 =>
    let s2 := r2.span isWSb
    match span1Word s2.2 with
    | none => none
    | some (w, r4) => some (s1.1 ++ ',' :: (s2.1 ++ w), r4)

/-- Greedy `(?:\s*,\s*\w+)*`. -/
def commaReps : Nat → List Char → List Char × List Char
  | 0, r => ([], r)
  | fuel + 1, r =>
    match commaRep r with
    | some (t, r') => let s := commaReps fuel r'; (t ++ s.1, s.2)
    | none => ([], r)

/-- One `\.\w+` repetition. -/
def dotRep (r : List Char) : Option (List Char × List Char) :=
  match dropLit ".".toList r with
  | none => none
  | some r1 =>
    match span1Word r1 with
    | none => none
    | some (w, r2) => some ('.' :: w, r2)

/-- Greedy `(?:\.\w+)*`. -/
def dotReps : Nat → List Char → List Char × List Char
  | 0, r => ([], r)
  | fuel + 1, r =>
    match dotRep r with
    | some (t, r') => let s := dotReps fuel r'; (t ++ s.1, s.2)
    | none => ([], r)

/-- Scan `\w+(?:\.\w+)*`, returning the captured dotted name and the rest. -/
def matchDotted (l : List Char) : Option (List Char × List Char) :=
  match span1Word l with
  | none => none
  | some (w, r) => let s := dotReps r.length r; some (w ++ s.1, s.2)

/-- Pattern `^\s*import\s+(\w+(?:\s*,\s*\w+)*)`. -/
def matchImportList (l : List Char) : Option (List Char) :=
  match dropLit "import".toList (l.dropWhile isWSb) with
  | none => none
  | some l2 =>
    match wsPlus l2 with
    | none => none
    | some l3 =>
      match span1Word l3 with
      | none => none
      | some (w, r) => some (w ++ (commaReps r.length r).1)

/-- Pattern `^\s*from\s+(\w+(?:\.\w+)*)\s+import\s+`. -/
def matchFromImport (l : List Char) : Option (List Char) :=
  match dropLit "from".toList (l.dropWhile isWSb) with
  | none => none
  | some l2 =>
    match wsPlus l2 with
    | none => none
    | some l3 =>
      match matchDotted l3 with
      | none => none
      | some (g, r) =>
        match wsPlus r with
        | none => none
        | some r1 =>
          match dropLit "import".toList r1 with
          | none => none
          | some r2 =>
            match wsPlus r2 with
            | none => none
            | some _ => some g

/-- Pattern `^\s*from\s+(\w+(?:\.\w+)*)\s+import\s+\(`. -/
def matchFromImportParen (l : List Char) : Option (List Char) :=
  match dropLit "from".toList (l.dropWhile isWSb) with
  | none => none
  | some l2 =>
    match wsPlus l2 with
    | none => none
    | some l3 =>
      match matchDotted l3 with
      | none => none
      | some (g, r) =>
        match wsPlus r with
        | none => none
        | some r1 =>
          match dropLit "import".toList r1 with
          | none => none
          | some r2 =>
            match wsPlus r2 with
            | none => none
            | some r3 =>
              match dropLit "(".toList r3 with
              | none => none
              | some _ => some g

/-- Pattern `^\s*import\s+(\w+(?:\.\w+)*)\s+as\s+\w+`. -/
def matchImportAs (l : List Char) : Option (List Char) :=
  match dropLit "import".toList (l.dropWhile isWSb) with
  | none => none
  | some l2 =>
    match wsPlus l2 with
    | none => none
    | some l3 =>
      match matchDotted l3 with
      | none => none
      | some (g, r) =>
        match wsPlus r with
        | none => none
        | some r1 =>
          match dropLit "as".toList r1 with
          | none => none
          | some r2 =>
            match wsPlus r2 with
            | none => none
            | some r3 =>
              match span1Word r3 with
              | none => none
              | some _ => some g

/-- Pattern `^\s*from\s+(\w+(?:\.\w+)*)\s+import\s+\w+\s+as\s+\w+`. -/
def matchFromImportAs (l : List Char) : Option (List Char) :=
  match dropLit "from".toList (l.dropWhile isWSb) with
  | none => none
  | some l2 =>
    match wsPlus l2 with
    | none => none
    | some l3 =>
      match matchDotted l3 with
      | none => none
      | some (g, r) =>
        match wsPlus r with
        | none => none
        | some r1 =>
          match dropLit "import".toList r1 with
          | none => none
          | some r2 =>
            match wsPlus r2 with
            | none => none
            | some r3 =>
              match span1Word r3 with
              | none => none
              | some (_, r4) =>
                match wsPlus r4 with
                | none => none
                | some r5 =>
                  match dropLit "as".toList r5 with
                  | none => none
                  | some r6 =>
                    match wsPlus r6 with
                    | none => none
                    | some r7 =>
                      match span1Word r7 with
                      | none => none
                      | some _ => some g

/-- The groups found on one line, in the source's `import_patterns` order. -/
def lineImportGroups (line : List Char) : List (List Char) :=
  [matchImportList line, matchFromImport line, matchFromImportParen line,
    matchImportAs line, matchFromImportAs line].filterMap id

/-- The fixed closed standard-library allow-list (fr10.py lines 417-425). -/
def std_lib : List (List Char) :=
  ["abc", "argparse", "asyncio", "collections", "concurrent", "contextlib",
   "copy", "csv", "datetime", "decimal", "email", "enum", "functools",
   "glob", "hashlib", "http", "importlib", "inspect", "io", "itertools",
   "json", "logging", "math", "multiprocessing", "operator", "os",
   "pathlib", "pickle", "random", "re", "shutil", "signal", "socket",
   "sqlite3", "statistics", "string", "subprocess", "sys", "tempfile",
   "threading", "time", "traceback", "typing", "uuid", "warnings",
   "weakref", "xml", "zipfile"].map String.toList

/-- Python `set.add` on the insertion-ordered model of the imports set. -/
def addImport (acc : List (List Char)) (x : List Char) : List (List Char) :=
  if x ∈ acc then acc else acc ++ [x]

/-- Process one source line: skip comment lines, else for every pattern
match split on commas and record each top-level module segment. -/
def processImportLine (acc : List (List Char)) (line : List Char) : List (List Char) :=
  if "#".toList.isPrefixOf (strip line) then acc
  else
    (lineImportGroups line).foldl (fun a grp =>
      (grp.splitOn ',').foldl (fun a2 m =>
        let top := ((strip m).splitOn '.').headD []
        if top = [] then a2 else addImport a2 top) a) acc

/-- fr10.py `extract_imports_from_python_content`: the set of
`(top-level module, is-standard-library)` pairs, in first-insertion order. -/
def extract_imports_from_python_content (content : List Char) :
    List (List Char × Bool) :=
  let imports := (content.splitOn '\n').foldl processImportLine []
  imports.map (fun imp => (imp, std_lib.contains imp))

/-- An attempt whose recursive-tree response was actually consumed and
carried `truncated = true`: the ref lookup succeeded (no pause, status 200,
non-empty commit sha) and the tree response arrived without pause with
status 200 and the truncation flag set. -/
def attemptTreeTruncated (now : Int) (a : Attempt) : Bool :=
  match a.ref, a.tree with
  | some refR, some treeR =>
    !(handle_rate_limiting refR now).1 && (refR.status == 200) &&
      (match refR.json.commitSha with
        | some sha => !sha.isEmpty
        | none => false) &&
      !(handle_rate_limiting treeR now).1 && (treeR.status == 200) &&
      treeR.json.truncated
  | _, _ => false

/-- The characters that can start one of the version operators. -/
def opChars : List Char := ['=', '>', '<', '~', '!']

/-! ### Concrete environments used by witnesses and counterexamples -/

/-- A fallback environment whose root listing holds one Python file. -/
def altFooEnv : AltEnv :=
  ⟨some ⟨none, none, 200, [],
      [⟨"file".toList, "foo.py".toList, "foo.py".toList⟩]⟩,
    fun _ => none⟩

/-- First attempt resolves the ref and receives a truncated tree response. -/
def truncatedTreeEnv : BranchTreeEnv :=
  ⟨0,
    fun _ =>
      ⟨some ⟨some 50, none, 200, [], ⟨some "abc".toList⟩⟩,
        some ⟨some 50, none, 200, [],
          ⟨true, [⟨"blob".toList, "partial.py".toList⟩]⟩⟩⟩,
    altFooEnv⟩

/-- Every attempt's branch-reference lookup answers with status 404. -/
def refErrorEnv : BranchTreeEnv :=
  ⟨0, fun _ => ⟨some ⟨none, none, 404, [], ⟨none⟩⟩, none⟩, altFooEnv⟩

/-- Every attempt's branch-reference lookup raises a transient exception. -/
def refRaiseEnv : BranchTreeEnv :=
  ⟨0, fun _ => ⟨none, none⟩, altFooEnv⟩

/-- A 403 quota-exceeded response that carries no rate-limit headers. -/
def noHeaderRateResp : HttpResponse Unit :=
  ⟨none, none, 403, "rate limit exceeded".toList, ()⟩

/-- A response with zero remaining quota resetting 5 seconds from now=100. -/
def exhaustedQuotaResp : HttpResponse Unit :=
  ⟨some 0, some 105, 200, [], ()⟩

/-- A file server whose first answer is a rate-limit pause and whose later
answers carry the manifest content. -/
def pausedFileServer : Nat → HttpResponse FilePayload := fun n =>
  if n = 0 then
    ⟨some 0, some 100, 403, "rate limit exceeded".toList,
      ⟨some "base64".toList, some "import numpy".toList⟩⟩
  else
    ⟨some 40, none, 200, [],
      ⟨some "base64".toList, some "import numpy".toList⟩⟩

/-! ### Generic lemmas about the string helpers -/

theorem head_dropWhile_not {α : Type} (p : α → Bool) :
    ∀ (l : List α) (c : α), (l.dropWhile p).head? = some c → p c = false
  | [], c, h => by simp [List.dropWhile] at h
  | a :: t, c, h => by
    by_cases hp : p a
    · rw [List.dropWhile_cons_of_pos hp] at h
      exact head_dropWhile_not p t c h
    · rw [List.dropWhile_cons_of_neg hp] at h
      simp only [List.head?_cons, Option.some.injEq] at h
      subst h; simpa using hp

theorem prefix_head_eq {α : Type} {u v : List α} (h : u <+: v) (hu : u ≠ []) :
    v.head? = u.head? := by
  obtain ⟨t, rfl⟩ := h
  exact List.head?_append_of_ne_nil u hu

theorem strip_sublist (l : List Char) : List.Sublist (strip l) l := by
  unfold strip rstrip lstrip
  exact (List.rdropWhile_prefix _ _).sublist.trans (List.dropWhile_suffix _).sublist

theorem mem_strip {c : Char} {l : List Char} (h : c ∈ strip l) : c ∈ l :=
  (strip_sublist l).subset h

theorem noHash_strip_splitHash (L : List Char) : '#' ∉ strip (splitHashHead L) := by
  intro h
  have h2 : '#' ∈ splitHashHead L := mem_strip h
  have h3 := List.mem_takeWhile_imp h2
  simp at h3

theorem splitHashHead_eq_self {l : List Char} (h : '#' ∉ l) : splitHashHead l = l := by
  induction l with
  | nil => rfl
  | cons a t ih =>
    have ha : a ≠ '#' := fun e => h (e ▸ List.mem_cons_self a t)
    have ht : '#' ∉ t := fun hm => h (List.mem_cons_of_mem a hm)
    unfold splitHashHead at ih ⊢
    rw [List.takeWhile_cons]
    simp [ha]
    exact fun x hx e => ht (e ▸ hx)

theorem strip_eq_self_of_noWS {l : List Char} (h : ∀ c ∈ l, isWSb c = false) :
    strip l = l := by
  unfold strip lstrip rstrip
  have h1 : List.dropWhile isWSb l = l := by
    cases l with
    | nil => rfl
    | cons a t =>
      rw [List.dropWhile_cons_of_neg]
      simp [h a (List.mem_cons_self a t)]
  rw [h1]
  rw [List.rdropWhile_eq_self_iff]
  intro hl
  simp [h (l.getLast hl) (List.getLast_mem hl)]

theorem strip_eq_nil_ws {l : List Char} (h : strip l = []) : ∀ c ∈ l, isWSb c = true := by
  unfold strip rstrip lstrip at h
  have h1 := List.rdropWhile_eq_nil_iff.mp h
  intro c hc
  rw [← List.takeWhile_append_dropWhile (p := isWSb) (l := l)] at hc
  rcases List.mem_append.mp hc with h2 | h2
  · exact List.mem_takeWhile_imp h2
  · exact h1 c h2

theorem strip_head_not_ws {l : List Char} {c : Char} (h : (strip l).head? = some c) :
    isWSb c = false := by
  have hne : strip l ≠ [] := by intro e; rw [e] at h; cases h
  have hpre : strip l <+: lstrip l := by
    unfold strip rstrip
    exact List.rdropWhile_prefix _ _
  have heq : (lstrip l).head? = (strip l).head? := prefix_head_eq hpre hne
  exact head_dropWhile_not isWSb l c (heq.trans h)

theorem strip_idem (l : List Char) : strip (strip l) = strip l := by
  have h1 : List.dropWhile isWSb (strip l) = strip l := by
    cases e : strip l with
    | nil => rfl
    | cons a t =>
      have ha : isWSb a = false := strip_head_not_ws (l := l) (by rw [e]; rfl)
      rw [List.dropWhile_cons_of_neg (by simp [ha])]
  show List.rdropWhile isWSb (List.dropWhile isWSb (strip l)) = strip l
  rw [h1]
  calc List.rdropWhile isWSb (strip l)
      = List.rdropWhile isWSb (List.rdropWhile isWSb (List.dropWhile isWSb l)) := rfl
    _ = List.rdropWhile isWSb (List.dropWhile isWSb l) := List.rdropWhile_idempotent _ _
    _ = strip l := rfl

theorem splitFirst_append {pat : List Char} :
    ∀ {l b a : List Char}, splitFirst pat l = some (b, a) → l = b ++ pat ++ a := by
  intro l
  induction l with
  | nil =>
    intro b a h
    unfold splitFirst at h
    by_cases hp : pat.isPrefixOf ([] : List Char)
    · rw [if_pos hp] at h
      obtain ⟨hb, ha⟩ : ([] : List Char) = b ∧ ([] : List Char) = a := by
        simpa using h
      have hpat : pat = [] := List.prefix_nil.mp (List.isPrefixOf_iff_prefix.mp hp)
      simp [← hb, ← ha, hpat]
    · rw [if_neg hp] at h
      simp at h
  | cons c rest ih =>
    intro b a h
    unfold splitFirst at h
    by_cases hp : pat.isPrefixOf (c :: rest)
    · rw [if_pos hp] at h
      obtain ⟨hb, ha⟩ : ([] : List Char) = b ∧ (c :: rest).drop pat.length = a := by
        simpa using h
      obtain ⟨t, ht⟩ := List.isPrefixOf_iff_prefix.mp hp
      rw [← hb, ← ha, ← ht, List.nil_append, List.drop_left]
    · rw [if_neg hp] at h
      cases hrec : splitFirst pat rest with
      | none => rw [hrec] at h; simp at h
      | some ba =>
        obtain ⟨b', a'⟩ := ba
        rw [hrec] at h
        obtain ⟨hb, ha⟩ : c :: b' = b ∧ a' = a := by simpa using h
        rw [← hb, ← ha]
        simp [ih hrec]

theorem splitFirst_of_contains {pat : List Char} :
    ∀ {l : List Char}, containsSub pat l = true → ∃ b a, splitFirst pat l = some (b, a) := by
  intro l
  induction l with
  | nil =>
    intro h
    unfold containsSub at h
    simp only [List.tails, List.any_cons, List.any_nil, Bool.or_false] at h
    exact ⟨[], [], by unfold splitFirst; rw [if_pos h]⟩
  | cons c rest ih =>
    intro h
    unfold splitFirst
    by_cases hp : pat.isPrefixOf (c :: rest)
    · exact ⟨[], _, by rw [if_pos hp]⟩
    · unfold containsSub at h
      rw [List.tails_cons, List.any_cons] at h
      rcases Bool.or_eq_true_iff.mp h with h1 | h1
      · exact absurd h1 hp
      · obtain ⟨b, a, hba⟩ := ih h1
        exact ⟨c :: b, a, by rw [if_neg hp, hba]⟩

theorem operators_shape : ∀ op ∈ operators, ∃ c rest, op = c :: rest ∧ c ∈ opChars := by
  have he : operators = [['=', '='], ['>', '='], ['<', '='], ['>'], ['<'],
      ['~', '='], ['!', '=']] := by decide
  intro op hop
  rw [he] at hop
  fin_cases hop <;> exact ⟨_, _, rfl, by decide⟩

/-! ### Lemmas about the pagination loop -/

theorem limitActive_some_le {l n : Nat} (h : limitActive (some l) n = true) : l ≤ n := by
  simp only [limitActive, Bool.and_eq_true, decide_eq_true_eq] at h
  exact h.2

theorem limitActive_some_lt {l n : Nat} (hl : l ≠ 0) (h : limitActive (some l) n = false) :
    n < l := by
  simp only [limitActive, Bool.and_eq_true, Bool.and_eq_false_iff] at h
  rcases h with h | h
  · simp [hl] at h
  · simpa using Nat.lt_of_not_le (by simpa using h)

theorem addNewRepos_grows (page : List RepoRec) :
    ∀ acc : List RepoRec, acc <+: addNewRepos acc page := by
  induction page with
  | nil => intro acc; exact List.prefix_rfl
  | cons r page ih =>
    intro acc
    show acc <+: addNewRepos
      (if r.name ∈ acc.map RepoRec.name then acc else acc ++ [r]) page
    by_cases hc : r.name ∈ acc.map RepoRec.name
    · rw [if_pos hc]; exact ih acc
    · rw [if_neg hc]; exact (List.prefix_append acc [r]).trans (ih (acc ++ [r]))

theorem addNewRepos_append (s t acc : List RepoRec) :
    addNewRepos acc (s ++ t) = addNewRepos (addNewRepos acc s) t :=
  List.foldl_append _ _ _ _

theorem addNewRepos_nodup (page : List RepoRec) :
    ∀ acc : List RepoRec, (acc.map RepoRec.name).Nodup →
      ((addNewRepos acc page).map RepoRec.name).Nodup := by
  induction page with
  | nil => intro acc h; exact h
  | cons r page ih =>
    intro acc h
    show ((addNewRepos
      (if r.name ∈ acc.map RepoRec.name then acc else acc ++ [r]) page).map
        RepoRec.name).Nodup
    by_cases hc : r.name ∈ acc.map RepoRec.name
    · rw [if_pos hc]; exact ih acc h
    · rw [if_neg hc]
      refine ih (acc ++ [r]) ?_
      rw [List.map_append]
      simp only [List.nodup_append, List.map_cons, List.map_nil]
      exact ⟨h, List.nodup_singleton _, by simpa using fun hmem => hc hmem⟩

theorem addNewRepos_mem (page : List RepoRec) :
    ∀ (acc : List RepoRec) (r : RepoRec), r ∈ addNewRepos acc page →
      r ∈ acc ∨ (r.name ∉ acc.map RepoRec.name ∧
        ∃ pre post, page = pre ++ r :: post ∧ ∀ x ∈ pre, x.name ≠ r.name) := by
  induction page with
  | nil => intro acc r h; exact Or.inl h
  | cons q page ih =>
    intro acc r h
    replace h : r ∈ addNewRepos
        (if q.name ∈ acc.map RepoRec.name then acc else acc ++ [q]) page := h
    by_cases hc : q.name ∈ acc.map RepoRec.name
    · rw [if_pos hc] at h
      rcases ih acc r h with hL | ⟨hn, pre, post, hpp, hpre⟩
      · exact Or.inl hL
      · refine Or.inr ⟨hn, q :: pre, post, by simp [hpp], ?_⟩
        intro x hx
        rcases List.mem_cons.mp hx with rfl | hx
        · exact fun e => hn (e ▸ hc)
        · exact hpre x hx
    · rw [if_neg hc] at h
      rcases ih (acc ++ [q]) r h with hL | ⟨hn, pre, post, hpp, hpre⟩
      · rcases List.mem_append.mp hL with hL | hL
        · exact Or.inl hL
        · have hrq : r = q := by simpa using hL
          subst hrq
          exact Or.inr ⟨hc, [], page, rfl, by simp⟩
      · have hn1 : r.name ∉ acc.map RepoRec.name := by
          intro hmem; exact hn (by simp [hmem])
        have hn2 : r.name ≠ q.name := by
          intro e; exact hn (by simp [e])
        refine Or.inr ⟨hn1, q :: pre, post, by simp [hpp], ?_⟩
        intro x hx
        rcases List.mem_cons.mp hx with rfl | hx
        · exact fun e => hn2 e.symm
        · exact hpre x hx

theorem runEndpoint_acc_grows (f : RepoRec → Bool) (lim : Option Nat) :
    ∀ (pages : List ListPage) (acc : List RepoRec),
      acc <+: (runEndpoint f lim pages acc).repos := by
  intro pages
  induction pages with
  | nil => intro acc; exact List.prefix_rfl
  | cons p rest ih =>
    intro acc
    simp only [runEndpoint]
    by_cases h1 : p.status ≠ 200
    · rw [if_pos h1]
    · rw [if_neg h1]
      by_cases h2 : p.repos = []
      · rw [if_pos h2]
      · rw [if_neg h2]
        by_cases h3 : limitActive lim (addNewRepos acc (p.repos.filter f)).length = true
        · rw [if_pos h3]
          exact addNewRepos_grows _ acc
        · rw [if_neg h3]
          by_cases h4 : (match p.linkHasNext with
            | some hasNext => !hasNext
            | none => decide ((p.repos.filter f).length < perPage)) = true
          · rw [if_pos h4]
            exact addNewRepos_grows _ acc
          · rw [if_neg h4]
            exact (addNewRepos_grows _ acc).trans (ih _)

theorem runEndpoint_repos_eq (f : RepoRec → Bool) (lim : Option Nat) :
    ∀ (pages : List ListPage) (acc : List RepoRec),
      (runEndpoint f lim pages acc).repos =
        addNewRepos acc (runEndpoint f lim pages acc).seen := by
  intro pages
  induction pages with
  | nil => intro acc; rfl
  | cons p rest ih =>
    intro acc
    simp only [runEndpoint]
    by_cases h1 : p.status ≠ 200
    · rw [if_pos h1]; rfl
    · rw [if_neg h1]
      by_cases h2 : p.repos = []
      · rw [if_pos h2]; rfl
      · rw [if_neg h2]
        by_cases h3 : limitActive lim (addNewRepos acc (p.repos.filter f)).length = true
        · rw [if_pos h3]
        · rw [if_neg h3]
          by_cases h4 : (match p.linkHasNext with
            | some hasNext => !hasNext
            | none => decide ((p.repos.filter f).length < perPage)) = true
          · rw [if_pos h4]
          · rw [if_neg h4]
            show (runEndpoint f lim rest (addNewRepos acc (p.repos.filter f))).repos =
              addNewRepos acc (p.repos.filter f ++
                (runEndpoint f lim rest (addNewRepos acc (p.repos.filter f))).seen)
            rw [addNewRepos_append]
            exact ih _

theorem runEndpoint_limit (f : RepoRec → Bool) (l : Nat) :
    ∀ (pages : List ListPage) (acc : List RepoRec),
      (runEndpoint f (some l) pages acc).repos <+:
        (runEndpoint f none pages acc).repos ∧
      (l ≤ (runEndpoint f (some l) pages acc).repos.length ∨
        runEndpoint f (some l) pages acc = runEndpoint f none pages acc) := by
  intro pages
  induction pages with
  | nil => intro acc; exact ⟨List.prefix_rfl, Or.inr rfl⟩
  | cons p rest ih =>
    intro acc
    simp only [runEndpoint]
    by_cases h1 : p.status ≠ 200
    · simp only [if_pos h1]; exact ⟨List.prefix_rfl, Or.inr trivial⟩
    · simp only [if_neg h1]
      by_cases h2 : p.repos = []
      · simp only [if_pos h2]; exact ⟨List.prefix_rfl, Or.inr trivial⟩
      · simp only [if_neg h2]
        have hnone : ¬(limitActive none
            (addNewRepos acc (p.repos.filter f)).length = true) := by
          simp [limitActive]
        simp only [if_neg hnone]
        by_cases h3 : limitActive (some l)
            (addNewRepos acc (p.repos.filter f)).length = true
        · simp only [if_pos h3]
          refine ⟨?_, Or.inl (limitActive_some_le h3)⟩
          by_cases h4 : (match p.linkHasNext with
            | some hasNext => !hasNext
            | none => decide ((p.repos.filter f).length < perPage)) = true
          · simp only [if_pos h4]; exact List.prefix_rfl
          · simp only [if_neg h4]
            exact runEndpoint_acc_grows f none rest _
        · simp only [if_neg h3]
          by_cases h4 : (match p.linkHasNext with
            | some hasNext => !hasNext
            | none => decide ((p.repos.filter f).length < perPage)) = true
          · simp only [if_pos h4]; exact ⟨List.prefix_rfl, Or.inr trivial⟩
          · simp only [if_neg h4]
            rcases ih (addNewRepos acc (p.repos.filter f)) with ⟨hpre, hor⟩
            refine ⟨hpre, ?_⟩
            rcases hor with hle | heq
            · exact Or.inl hle
            · exact Or.inr (by rw [heq])

theorem runEndpoint_reqlog (f : RepoRec → Bool) (l : Nat) (hl : l ≠ 0) :
    ∀ (pages : List ListPage) (acc : List RepoRec), acc.length < l →
      ∀ n ∈ (runEndpoint f (some l) pages acc).reqLog, n < l := by
  intro pages
  induction pages with
  | nil =>
    intro acc hacc n hn
    simp only [runEndpoint] at hn
    have he : n = acc.length := by simpa using hn
    exact he ▸ hacc
  | cons p rest ih =>
    intro acc hacc n hn
    simp only [runEndpoint] at hn
    by_cases h1 : p.status ≠ 200
    · rw [if_pos h1] at hn
      have : n = acc.length := by simpa using hn
      exact this ▸ hacc
    · rw [if_neg h1] at hn
      by_cases h2 : p.repos = []
      · rw [if_pos h2] at hn
        have : n = acc.length := by simpa using hn
        exact this ▸ hacc
      · rw [if_neg h2] at hn
        by_cases h3 : limitActive (some l)
            (addNewRepos acc (p.repos.filter f)).length = true
        · rw [if_pos h3] at hn
          have : n = acc.length := by simpa using hn
          exact this ▸ hacc
        · rw [if_neg h3] at hn
          by_cases h4 : (match p.linkHasNext with
            | some hasNext => !hasNext
            | none => decide ((p.repos.filter f).length < perPage)) = true
          · rw [if_pos h4] at hn
            have : n = acc.length := by simpa using hn
            exact this ▸ hacc
          · rw [if_neg h4] at hn
            rcases List.mem_cons.mp hn with rfl | hn
            · exact hacc
            · exact ih _ (limitActive_some_lt hl (by simpa using h3)) n hn

theorem finalTrim_shrinks (limit : Option Nat) (x : List RepoRec) :
    finalTrim limit x <+: x := by
  cases limit with
  | none => exact List.prefix_rfl
  | some k =>
    simp only [finalTrim]
    by_cases h : k ≠ 0 ∧ k < x.length
    · rw [if_pos h]; exact List.take_prefix _ _
    · rw [if_neg h]

theorem finalTrim_length_of_le {l : Nat} {x : List RepoRec} (hl0 : l ≠ 0)
    (hle : l ≤ x.length) : (finalTrim (some l) x).length = l := by
  simp only [finalTrim]
  by_cases h : l < x.length
  · rw [if_pos ⟨hl0, h⟩, List.length_take]; omega
  · rw [if_neg (by tauto)]; omega

theorem finalTrim_eq_of_not_lt {l : Nat} {x : List RepoRec} (h : ¬l < x.length) :
    finalTrim (some l) x = x := by
  simp only [finalTrim]
  rw [if_neg (by tauto)]

theorem get_all_org_repos_shape (orgName : List Char) (e1 e2 : List ListPage)
    (limit : Option Nat) :
    (get_all_org_repos orgName e1 e2 limit).repos =
      finalTrim limit
        (addNewRepos [] (get_all_org_repos orgName e1 e2 limit).seen) := by
  unfold get_all_org_repos
  by_cases h0 : limitActive limit 0 = true
  · simp only [if_pos h0]; rfl
  · simp only [if_neg h0]
    by_cases h1 : limitActive limit
        (runEndpoint (fun _ => true) limit e1 []).repos.length = true
    · simp only [if_pos h1]
      rw [← runEndpoint_repos_eq]
    · simp only [if_neg h1]
      rw [addNewRepos_append, ← runEndpoint_repos_eq, ← runEndpoint_repos_eq]

/-- C6: over every pagination environment for the two listing endpoints, the
repository list returned by `get_all_org_repos` contains no two entries with
the same name, and every returned record is the first record carrying its
name in the stream of page entries the loop examined (first-seen wins). -/
theorem get_all_org_repos_dedup_firstseen (orgName : List Char)
    (e1 e2 : List ListPage) (limit : Option Nat) :
    (((get_all_org_repos orgName e1 e2 limit).repos.map RepoRec.name).Nodup) ∧
    ∀ r ∈ (get_all_org_repos orgName e1 e2 limit).repos,
      ∃ pre post,
        (get_all_org_repos orgName e1 e2 limit).seen = pre ++ r :: post ∧
        ∀ x ∈ pre, x.name ≠ r.name := by
  have hshape := get_all_org_repos_shape orgName e1 e2 limit
  constructor
  · rw [hshape]
    have hnodup : ((addNewRepos []
        (get_all_org_repos orgName e1 e2 limit).seen).map RepoRec.name).Nodup :=
      addNewRepos_nodup _ [] (by simp)
    exact List.Nodup.sublist
      ((finalTrim_shrinks limit _).sublist.map RepoRec.name) hnodup
  · intro r hr
    rw [hshape] at hr
    have hr2 : r ∈ addNewRepos [] (get_all_org_repos orgName e1 e2 limit).seen :=
      (finalTrim_shrinks limit _).sublist.subset hr
    rcases addNewRepos_mem _ [] r hr2 with h | ⟨-, pre, post, hpp, hpre⟩
    · cases h
    · exact ⟨pre, post, hpp, hpre⟩

/-- C6 witness: on a concrete two-copy page the duplicate collapses and the
retained record is the first occurrence in the examined stream. -/
theorem get_all_org_repos_dedup_firstseen_witness :
    ∃ pre post,
      (get_all_org_repos "o".toList
        [⟨200, [⟨"a".toList, "o".toList⟩, ⟨"a".toList, "o".toList⟩], some false⟩]
        [] none).seen =
        pre ++ (⟨"a".toList, "o".toList⟩ : RepoRec) :: post ∧
      ∀ x ∈ pre, x.name ≠ (⟨"a".toList, "o".toList⟩ : RepoRec).name :=
  (get_all_org_repos_dedup_firstseen "o".toList
    [⟨200, [⟨"a".toList, "o".toList⟩, ⟨"a".toList, "o".toList⟩], some false⟩]
    [] none).2 ⟨"a".toList, "o".toList⟩ (by decide)

/-- C5 counterexample: with the caller-supplied limit `L = 0` (falsy in
Python), `get_all_org_repos` returns every available repository instead of
`min(L, total) = 0` records, so the claim fails as stated. -/
theorem get_all_org_repos_limit_cex :
    (get_all_org_repos "o".toList
      [⟨200, [⟨"a".toList, "o".toList⟩], some false⟩] [] (some 0)).repos.length
        = 1 ∧
    min 0 (get_all_org_repos "o".toList
      [⟨200, [⟨"a".toList, "o".toList⟩], some false⟩] [] none).repos.length
        = 0 := by decide

/-- C5 amended: for every positive caller limit `L`, the returned list is a
prefix of the unlimited traversal's list (first-discovered order), has
exactly `min L total-available` records, and every page request across both
endpoints is issued while fewer than `L` repositories are accumulated. -/
theorem get_all_org_repos_limit_amended (orgName : List Char)
    (e1 e2 : List ListPage) (l : Nat) (hl : 0 < l) :
    (get_all_org_repos orgName e1 e2 (some l)).repos <+:
      (get_all_org_repos orgName e1 e2 none).repos ∧
    (get_all_org_repos orgName e1 e2 (some l)).repos.length =
      min l (get_all_org_repos orgName e1 e2 none).repos.length ∧
    ∀ n ∈ (get_all_org_repos orgName e1 e2 (some l)).reqLog, n < l := by
  have hl0 : l ≠ 0 := hl.ne'
  have h00 : ¬(limitActive (some l) 0 = true) := by
    simp only [limitActive, Bool.and_eq_true, decide_eq_true_eq]
    rintro ⟨-, h⟩; omega
  have hn0 : ¬(limitActive none 0 = true) := by simp [limitActive]
  unfold get_all_org_repos
  simp only [if_neg h00, if_neg hn0]
  have H1 := runEndpoint_limit (fun _ => true) l e1 []
  have hnF : ¬(limitActive none
      (runEndpoint (fun _ => true) none e1 []).repos.length = true) := by
    simp [limitActive]
  simp only [if_neg hnF]
  have finalTrim_none : ∀ x : List RepoRec, finalTrim none x = x := fun _ => rfl
  simp only [finalTrim_none]
  by_cases hA : limitActive (some l)
      (runEndpoint (fun _ => true) (some l) e1 []).repos.length = true
  · simp only [if_pos hA]
    have hle : l ≤ (runEndpoint (fun _ => true) (some l) e1 []).repos.length :=
      limitActive_some_le hA
    have hchain : (runEndpoint (fun _ => true) (some l) e1 []).repos <+:
        (runEndpoint (fun r => r.owner = orgName) none e2
          (runEndpoint (fun _ => true) none e1 []).repos).repos :=
      H1.1.trans (runEndpoint_acc_grows _ none e2 _)
    refine ⟨?_, ?_, ?_⟩
    · exact (finalTrim_shrinks (some l) _).trans hchain
    · rw [finalTrim_length_of_le hl0 hle]
      have := hchain.length_le
      omega
    · exact runEndpoint_reqlog _ l hl0 e1 [] (by simpa using hl)
  · simp only [if_neg hA]
    have hlt1 : (runEndpoint (fun _ => true) (some l) e1 []).repos.length < l :=
      limitActive_some_lt hl0 (by simpa using hA)
    have heq1 : runEndpoint (fun _ => true) (some l) e1 [] =
        runEndpoint (fun _ => true) none e1 [] := by
      rcases H1.2 with h | h
      · omega
      · exact h
    have H2 := runEndpoint_limit (fun r => r.owner = orgName) l e2
      (runEndpoint (fun _ => true) none e1 []).repos
    rw [heq1]
    refine ⟨?_, ?_, ?_⟩
    · exact (finalTrim_shrinks (some l) _).trans H2.1
    · by_cases hlt : l < (runEndpoint (fun r => r.owner = orgName) (some l) e2
          (runEndpoint (fun _ => true) none e1 []).repos).repos.length
      · rw [finalTrim_length_of_le hl0 (le_of_lt hlt)]
        have := H2.1.length_le
        omega
      · rw [finalTrim_eq_of_not_lt hlt]
        rcases H2.2 with h | h
        · have := H2.1.length_le
          omega
        · rw [h]
          have : (runEndpoint (fun r => r.owner = orgName) (some l) e2
              (runEndpoint (fun _ => true) none e1 []).repos).repos.length ≤ l := by
            omega
          rw [h] at this
          omega
    · intro n hn
      rcases List.mem_append.mp hn with hn | hn
      · have := runEndpoint_reqlog (fun _ => true) l hl0 e1 [] (by simpa using hl)
        rw [heq1] at this
        exact this n hn
      · refine runEndpoint_reqlog _ l hl0 e2 _ ?_ n hn
        rw [← heq1]
        exact hlt1

/-- C5 witness: with one page holding one repository and limit 1, exactly
`min 1 total` records are returned. -/
theorem get_all_org_repos_limit_amended_witness :
    (get_all_org_repos "o".toList
      [⟨200, [⟨"a".toList, "o".toList⟩], some false⟩] [] (some 1)).repos.length =
    min 1 (get_all_org_repos "o".toList
      [⟨200, [⟨"a".toList, "o".toList⟩], some false⟩] [] none).repos.length :=
  (get_all_org_repos_limit_amended "o".toList
    [⟨200, [⟨"a".toList, "o".toList⟩], some false⟩] [] 1 (by decide)).2.1

/-- C7 counterexample: the URL line "http://e.com/x" parses to the spec
{name: "http://e.com/x", version: "url"}; the reconstructed cell text
"http://e.com/xurl" re-parses with a different name, refuting idempotence. -/
theorem parse_requirement_reparse_cex :
    ((parse_requirement_line ("http://e.com/x".toList)).bind
        (fun s => parse_requirement_line (reconstructPkg s))).map DepSpec.name ≠
      (parse_requirement_line ("http://e.com/x".toList)).map DepSpec.name := by
  decide

/-- C7 amended: for every line whose comment-stripped text contains no
whitespace and does not start with a VCS/URL prefix, re-parsing the
reconstructed name+constraint string recovers exactly the same spec. -/
theorem parse_requirement_reparse_amended (L : List Char)
    (hws : ∀ c ∈ strip (splitHashHead L), isWSb c = false)
    (hpre : ("git+".toList.isPrefixOf (strip (splitHashHead L)) ||
        "http".toList.isPrefixOf (strip (splitHashHead L))) = false)
    (spec : DepSpec) (hp : parse_requirement_line L = some spec) :
    parse_requirement_line (reconstructPkg spec) = some spec := by
  set s := strip (splitHashHead L) with hs
  have hnohash : '#' ∉ s := by rw [hs]; exact noHash_strip_splitHash L
  have hstrip_s : strip s = s := strip_eq_self_of_noWS hws
  have hp0 : parseReqCore s = some spec := hp
  have hfin : reconstructPkg spec = s → parse_requirement_line (reconstructPkg spec) = some spec := by
    intro hr
    rw [parse_requirement_line, hr, splitHashHead_eq_self hnohash, hstrip_s]
    exact hp0
  have hp1 := hp0
  unfold parseReqCore at hp1
  by_cases hnil : s = []
  · rw [if_pos hnil] at hp1; cases hp1
  rw [if_neg hnil] at hp1
  rw [if_neg (by rw [hpre]; simp)] at hp1
  cases hfind : operators.find? (fun op => containsSub op s) with
  | none =>
    rw [hfind] at hp1
    have hspec : spec = ⟨strip s, "latest".toList, s⟩ := by
      have := hp1.symm
      simpa using this
    apply hfin
    rw [hspec, reconstructPkg]
    simp [hstrip_s]
  | some op =>
    rw [hfind] at hp1
    have hcontains := List.find?_some hfind
    obtain ⟨b, a, hsplit⟩ := splitFirst_of_contains hcontains
    have hp2 : (match splitFirst op s with
      | some (b, a) => some (⟨strip b, op ++ strip a, s⟩ : DepSpec)
      | none => none) = some spec := hp1
    rw [hsplit] at hp2
    have hspec : spec = ⟨strip b, op ++ strip a, s⟩ := by
      have h2 := hp2.symm
      simpa using h2
    have hdecomp : s = b ++ op ++ a := splitFirst_append hsplit
    have hb : ∀ c ∈ b, isWSb c = false := fun c hc =>
      hws c (by rw [hdecomp]; simp [hc])
    have ha : ∀ c ∈ a, isWSb c = false := fun c hc =>
      hws c (by rw [hdecomp]; simp [hc])
    have hsb : strip b = b := strip_eq_self_of_noWS hb
    have hsa : strip a = a := strip_eq_self_of_noWS ha
    obtain ⟨c0, rest, hop, hcmem⟩ :=
      operators_shape op (List.mem_of_find?_eq_some hfind)
    have hvlat : (op ++ strip a) ≠ "latest".toList := by
      rw [hsa, hop]
      intro he
      have hc0 : c0 = 'l' := by
        have h3 := congrArg List.head? he
        simpa using h3
      exact absurd (hc0 ▸ hcmem) (by decide)
    apply hfin
    rw [hspec]
    show strip b ++
      (if (op ++ strip a) = "latest".toList then [] else op ++ strip a) = s
    rw [if_neg hvlat, hsb, hsa, hdecomp, List.append_assoc]

/-- C7 witness: on the whitespace-free line "a==1", re-parsing the
reconstruction yields the same spec. -/
theorem parse_requirement_reparse_amended_witness :
    parse_requirement_line
      (reconstructPkg ⟨"a".toList, "==1".toList, "a==1".toList⟩) =
      some ⟨"a".toList, "==1".toList, "a==1".toList⟩ :=
  parse_requirement_reparse_amended ("a==1".toList) (by decide) (by decide)
    ⟨"a".toList, "==1".toList, "a==1".toList⟩ (by decide)

/-- C8 counterexample: the line "==1" parses to a non-None record whose name
field is the empty string, refuting the claim as stated. -/
theorem parse_requirement_empty_name_cex :
    parse_requirement_line ("==1".toList) =
      some ⟨[], "==1".toList, "==1".toList⟩ := by decide

/-- C8 amended: whenever `parse_requirement_line` returns a record and the
comment-stripped line does not begin with a version-operator character
(`=`, `>`, `<`, `~`, `!`), the returned name is non-empty. -/
theorem parse_requirement_name_nonempty_amended (L : List Char) (spec : DepSpec)
    (hp : parse_requirement_line L = some spec)
    (hhead : ∀ c, (strip (splitHashHead L)).head? = some c → c ∉ opChars) :
    spec.name ≠ [] := by
  set s := strip (splitHashHead L) with hs
  have hnohash : '#' ∉ s := by rw [hs]; exact noHash_strip_splitHash L
  have hp0 : parseReqCore s = some spec := hp
  unfold parseReqCore at hp0
  by_cases hnil : s = []
  · rw [if_pos hnil] at hp0; cases hp0
  rw [if_neg hnil] at hp0
  by_cases hurl : ("git+".toList.isPrefixOf s || "http".toList.isPrefixOf s) = true
  · rw [if_pos hurl] at hp0
    cases hsplit : splitFirst "#egg=".toList s with
    | some ba =>
      exfalso
      obtain ⟨b, a⟩ := ba
      have hd := splitFirst_append hsplit
      exact hnohash (by rw [hd]; simp)
    | none =>
      have hp2 : (match splitFirst "#egg=".toList s with
        | some (_, a) =>
            let p1 := match splitFirst "#egg=".toList a with
              | some (b2, _) => b2
              | none => a
            some (⟨strip p1, "git".toList, s⟩ : DepSpec)
        | none => some (⟨s, "url".toList, s⟩ : DepSpec)) = some spec := hp0
      rw [hsplit] at hp2
      have hspec : spec = ⟨s, "url".toList, s⟩ := by
        have h2 := hp2.symm
        simpa using h2
      rw [hspec]
      exact hnil
  · rw [if_neg hurl] at hp0
    cases hfind : operators.find? (fun op => containsSub op s) with
    | none =>
      rw [hfind] at hp0
      have hspec : spec = ⟨strip s, "latest".toList, s⟩ := by
        have h2 := hp0.symm
        simpa using h2
      rw [hspec]
      show strip s ≠ []
      rw [hs, strip_idem]
      rw [← hs]
      exact hnil
    | some op =>
      rw [hfind] at hp0
      have hcontains := List.find?_some hfind
      obtain ⟨b, a, hsplit⟩ := splitFirst_of_contains hcontains
      have hp2 : (match splitFirst op s with
        | some (b, a) => some (⟨strip b, op ++ strip a, s⟩ : DepSpec)
        | none => none) = some spec := hp0
      rw [hsplit] at hp2
      have hspec : spec = ⟨strip b, op ++ strip a, s⟩ := by
        have h2 := hp2.symm
        simpa using h2
      have hdecomp : s = b ++ op ++ a := splitFirst_append hsplit
      obtain ⟨c0, rest, hop, hcmem⟩ :=
        operators_shape op (List.mem_of_find?_eq_some hfind)
      cases b with
      | nil =>
        exfalso
        have hhd : s.head? = some c0 := by
          rw [hdecomp, hop]
          simp
        exact hhead c0 hhd hcmem
      | cons d b' =>
        have hhd : s.head? = some d := by
          rw [hdecomp]
          simp
        have hdws : isWSb d = false := by
          rw [hs] at hhd
          exact strip_head_not_ws hhd
        rw [hspec]
        show strip (d :: b') ≠ []
        intro he
        have := strip_eq_nil_ws he d (List.mem_cons_self d b')
        rw [hdws] at this
        cases this

/-- C8 witness: the bare line "pkg" yields a record with the non-empty name
"pkg". -/
theorem parse_requirement_name_nonempty_amended_witness :
    (⟨"pkg".toList, "latest".toList, "pkg".toList⟩ : DepSpec).name ≠ [] :=
  parse_requirement_name_nonempty_amended ("pkg".toList)
    ⟨"pkg".toList, "latest".toList, "pkg".toList⟩ (by decide)
    (by
      intro c hc
      have h2 : some 'p' = some c := hc
      injection h2 with h3
      rw [← h3]
      decide)

/-! ### Lemmas about the branch-tree retry loop -/

theorem get_branch_tree_go_retry (env : BranchTreeEnv) (i fuel : Nat)
    (h : attemptStep env.now env.alt (env.attempts i) = none) :
    get_branch_tree_go env i (fuel + 1) = get_branch_tree_go env (i + 1) fuel := by
  simp [get_branch_tree_go, h]

theorem get_branch_tree_go_done (env : BranchTreeEnv) (i fuel : Nat)
    (res : List TreeItem)
    (h : attemptStep env.now env.alt (env.attempts i) = some res) :
    get_branch_tree_go env i (fuel + 1) = res := by
  simp [get_branch_tree_go, h]

theorem attemptStep_of_truncated (now : Int) (alt : AltEnv) (a : Attempt)
    (h : attemptTreeTruncated now a = true) :
    attemptStep now alt a = some (get_python_files_alternative alt now) := by
  obtain ⟨ref, tree⟩ := a
  cases ref with
  | none => simp [attemptTreeTruncated] at h
  | some refR =>
    cases tree with
    | none => simp [attemptTreeTruncated] at h
    | some treeR =>
      simp only [attemptTreeTruncated, Bool.and_eq_true, beq_iff_eq,
        Bool.not_eq_true'] at h
      obtain ⟨⟨⟨⟨⟨hrl1, hst1⟩, hsha⟩, hrl2⟩, hst2⟩, htr⟩ := h
      cases hc : refR.json.commitSha with
      | none => rw [hc] at hsha; simp at hsha
      | some sha =>
        rw [hc] at hsha
        have hsne : ¬(sha = []) := by simpa using hsha
        simp [attemptStep, hrl1, hst1, hc, hsne, hrl2, hst2, htr]

/-- C1: whenever an attempt of `get_branch_tree` consumes a recursive-tree
response flagged `truncated = true` (all earlier attempts having retried),
the function returns the directory-walk fallback's result, never the
partial list from that response. -/
theorem get_branch_tree_truncated_falls_back (env : BranchTreeEnv) (i : Nat)
    (hi : i < 3)
    (hprev : ∀ j, j < i → attemptStep env.now env.alt (env.attempts j) = none)
    (htr : attemptTreeTruncated env.now (env.attempts i) = true) :
    get_branch_tree env = get_python_files_alternative env.alt env.now := by
  have hstep := attemptStep_of_truncated env.now env.alt (env.attempts i) htr
  interval_cases i
  · exact get_branch_tree_go_done env 0 2 _ hstep
  · exact (get_branch_tree_go_retry env 0 2 (hprev 0 (by omega))).trans
      (get_branch_tree_go_done env 1 1 _ hstep)
  · exact (get_branch_tree_go_retry env 0 2 (hprev 0 (by omega))).trans
      ((get_branch_tree_go_retry env 1 1 (hprev 1 (by omega))).trans
        (get_branch_tree_go_done env 2 0 _ hstep))

/-- C1 witness: a truncated first attempt makes `get_branch_tree` return
the fallback's result on a concrete environment. -/
theorem get_branch_tree_truncated_falls_back_witness :
    get_branch_tree truncatedTreeEnv =
      get_python_files_alternative truncatedTreeEnv.alt truncatedTreeEnv.now :=
  get_branch_tree_truncated_falls_back truncatedTreeEnv 0 (by decide)
    (fun j hj => absurd hj (Nat.not_lt_zero j)) (by decide)

/-- C3 counterexample: with every branch-reference lookup answering 404,
`get_branch_tree` returns the empty list even though the directory-walk
fallback would have found a Python file, refuting the claim that a
non-success RESOLVE_REF status transitions to the fallback. -/
theorem get_branch_tree_ref_error_cex :
    get_branch_tree refErrorEnv = [] ∧
    get_python_files_alternative refErrorEnv.alt refErrorEnv.now =
      [⟨"blob".toList, "foo.py".toList⟩] := by decide

/-- C3 amended: exhausting the 3 retry attempts (exceptions or rate-limit
pauses) makes `get_branch_tree` return the directory-walk fallback's
result, but a non-success branch-reference status makes it return the
empty list instead. -/
theorem get_branch_tree_fallback_amended (env : BranchTreeEnv) :
    ((∀ j, j < 3 → attemptStep env.now env.alt (env.attempts j) = none) →
      get_branch_tree env = get_python_files_alternative env.alt env.now) ∧
    (∀ i, i < 3 →
      (∀ j, j < i → attemptStep env.now env.alt (env.attempts j) = none) →
      ∀ refR, (env.attempts i).ref = some refR →
        (handle_rate_limiting refR env.now).1 = false → refR.status ≠ 200 →
        get_branch_tree env = []) := by
  constructor
  · intro hall
    have e1 : get_branch_tree env = get_branch_tree_go env 1 2 :=
      get_branch_tree_go_retry env 0 2 (hall 0 (by omega))
    have e2 := get_branch_tree_go_retry env 1 1 (hall 1 (by omega))
    have e3 := get_branch_tree_go_retry env 2 0 (hall 2 (by omega))
    exact e1.trans (e2.trans e3)
  · intro i hi hprev refR href hrl hst
    have hstep : attemptStep env.now env.alt (env.attempts i) = some [] := by
      simp [attemptStep, href, hrl, hst]
    interval_cases i
    · exact get_branch_tree_go_done env 0 2 _ hstep
    · exact (get_branch_tree_go_retry env 0 2 (hprev 0 (by omega))).trans
        (get_branch_tree_go_done env 1 1 _ hstep)
    · exact (get_branch_tree_go_retry env 0 2 (hprev 0 (by omega))).trans
        ((get_branch_tree_go_retry env 1 1 (hprev 1 (by omega))).trans
          (get_branch_tree_go_done env 2 0 _ hstep))

/-- C3 witness: when all three attempts raise, the result is the fallback's. -/
theorem get_branch_tree_fallback_amended_witness :
    get_branch_tree refRaiseEnv =
      get_python_files_alternative refRaiseEnv.alt refRaiseEnv.now :=
  (get_branch_tree_fallback_amended refRaiseEnv).1 (fun _ _ => rfl)

/-- C4 counterexample: a 403 quota-exceeded response without the
X-RateLimit-Remaining header is not retried and causes no wait, refuting
the claim for such responses. -/
theorem handle_rate_limiting_cex :
    handle_rate_limiting noHeaderRateResp 0 = (false, 0) ∧
    noHeaderRateResp.status = 403 ∧
    containsSub rateLimitMsg (asciiLower noHeaderRateResp.bodyText) = true := by
  decide

/-- C4 amended: when the rate-limit-remaining header is present, the retry
signal holds exactly for a zero remaining quota or a 403 with the
rate-limit-exceeded message, a signalled retry waits
`max(reset − now, 0) + 1` seconds (reset defaulting to now+3600), and a
non-signalled response returns immediately; without the header the function
returns immediately. -/
theorem handle_rate_limiting_amended {α : Type} (r : HttpResponse α) (now : Int) :
    (r.remaining = none → handle_rate_limiting r now = (false, 0)) ∧
    ∀ rem, r.remaining = some rem →
      (((handle_rate_limiting r now).1 = true) ↔
        (rem = 0 ∨ (r.status = 403 ∧
          containsSub rateLimitMsg (asciiLower r.bodyText) = true))) ∧
      ((handle_rate_limiting r now).1 = true →
        (handle_rate_limiting r now).2 =
          max (r.reset.getD (now + 3600) - now) 0 + 1) ∧
      ((handle_rate_limiting r now).1 = false →
        handle_rate_limiting r now = (false, 0)) := by
  constructor
  · intro h
    simp [handle_rate_limiting, h]
  · intro rem h
    simp only [handle_rate_limiting, h]
    by_cases hc : rem = 0 ∨ (r.status = 403 ∧
        containsSub rateLimitMsg (asciiLower r.bodyText) = true)
    · simp [hc]
    · simp [hc]

/-- C4 witness: remaining=0 with reset 5 seconds ahead signals retry and
blocks for at least 5 seconds. -/
theorem handle_rate_limiting_amended_witness :
    (handle_rate_limiting exhaustedQuotaResp 100).1 = true ∧
    (5 : Int) ≤ (handle_rate_limiting exhaustedQuotaResp 100).2 := by
  have h := (handle_rate_limiting_amended exhaustedQuotaResp 100).2 0 rfl
  have h1 : (handle_rate_limiting exhaustedQuotaResp 100).1 = true :=
    h.1.mpr (Or.inl rfl)
  refine ⟨h1, ?_⟩
  rw [h.2.1 h1]
  decide

/-- C10: a response that triggers the rate-limit pause makes
`find_file_in_branch` return `none` — the absent-file value — after exactly
one request, without re-issuing it. -/
theorem find_file_rate_limited_none (now : Int)
    (server : Nat → HttpResponse FilePayload)
    (h : (handle_rate_limiting (server 0) now).1 = true) :
    find_file_in_branch now server = (none, 1) := by
  simp only [find_file_in_branch]
  rw [if_pos h]

/-- C10 witness: the paused server reports the file absent on the sole
request even though a re-issued request would have returned its content. -/
theorem find_file_rate_limited_none_witness :
    find_file_in_branch 0 pausedFileServer = (none, 1) ∧
    (pausedFileServer 1).json.content = some "import numpy".toList :=
  ⟨find_file_rate_limited_none 0 pausedFileServer (by decide), by decide⟩

/-- C2 (claim right, code wrong): on the spec's example line the code first
strips everything from the `#`, so the `#egg=` branch can never fire and
the whole fragment-less URL becomes the name with the "url" sentinel
instead of name "foo" with sentinel "git". -/
theorem parse_requirement_egg_line_eval :
    parse_requirement_line ("git+https://example.com/x.git#egg=foo".toList) =
      some ⟨"git+https://example.com/x.git".toList, "url".toList,
        "git+https://example.com/x.git".toList⟩ := by decide

/-- C9: on a source text with the lines "import os, sys" and
"from numpy.linalg import inv", the extractor yields exactly the pairs
(os, std), (sys, std), (numpy, third-party). -/
theorem extract_imports_example_eval :
    extract_imports_from_python_content
      ("import os, sys\nfrom numpy.linalg import inv".toList) =
      [("os".toList, true), ("sys".toList, true), ("numpy".toList, false)] := by
  decide
